import Mathlib

/-!
Verification development for a six-in-a-row connection game.

The board rules engine (`init_game`, `place_stone`, `check_win`,
`undo_last_move`) is translated from `src/fileio.c`; the AI decision
engine (`evaluate_pos`, `random_move`, `ai_move`) from `src/ai.c`.

Modelling conventions:
* `cells[BOARD_SIZE][BOARD_SIZE]` becomes a total function
  `Nat × Nat → Cell`; C reads the array only at indices that were
  bounds-checked (`within_board`), so the values of the Lean function
  outside `[0,19) × [0,19)` are never consulted on those paths.
* The fixed-capacity array `moves[BOARD_SIZE*BOARD_SIZE]` paired with
  `moves_count` is abstracted to the list of its first `moves_count`
  entries: `place_stone` writes `moves[moves_count]` and increments the
  count (list append), `undo_last_move` decrements the count (list
  `dropLast`); slots at or beyond `moves_count` are never read by the
  program, so the pair and the list have the same observable behaviour.
* `rand()` is modelled by an injected stream `rng : Nat → Nat`: the
  k-th call to `rand()` during one AI decision returns `rng k`.
* C `int` scalars (`current_player`, `winner`, `player`, coordinates,
  scores) are `Int`; the `finished` flag, used only as a boolean, is
  `Bool`.
* The C `while` walks along a direction are given fuel `BOARD_SIZE`:
  every direction used by the program has a ±1 component, so from any
  in-bounds start the loop body runs at most `BOARD_SIZE` times, and
  from an out-of-bounds start it runs zero times; the fuelled
  recursion therefore computes exactly the C loop count.
-/

/-- `#define BOARD_SIZE 19` -/
def BOARD_SIZE : Nat := 19

/-- `#define WIN_LENGTH 6` -/
def WIN_LENGTH : Nat := 6

/-- `typedef enum { CELL_EMPTY = 0, CELL_BLACK = 1, CELL_WHITE = 2 } Cell;` -/
inductive Cell where
  | Empty : Cell
  | Black : Cell
  | White : Cell
deriving DecidableEq, Repr

/-- `typedef struct { int row; int col; int player; } Move;` -/
structure Move where
  row : Int
  col : Int
  player : Int
deriving DecidableEq, Repr

/-- `typedef struct { Cell cells[..][..]; int current_player; int finished;
int winner; int undo_count; int moves_count; Move moves[..]; } GameState;`
(`moves_count` is the length of the `moves` list, see the module header). -/
structure GameState where
  cells : Nat × Nat → Cell
  current_player : Int
  finished : Bool
  winner : Int
  undo_count : Int
  moves : List Move

/-- `game->moves_count` -/
def GameState.moves_count (g : GameState) : Nat := g.moves.length

/-- The integer value of a `Cell` enumerator (`game->winner = me` stores the
enumerator as an `int`). -/
def cellInt : Cell → Int
  | Cell.Empty => 0
  | Cell.Black => 1
  | Cell.White => 2

/-- `(player == 1 ? CELL_BLACK : CELL_WHITE)` -/
def colorOf (player : Int) : Cell :=
  if player = 1 then Cell.Black else Cell.White

/-- `int within_board(int row, int col)` from `fileio.c`. -/
def within_board (row col : Int) : Bool :=
  decide (row ≥ 0 ∧ row < (BOARD_SIZE : Int) ∧ col ≥ 0 ∧ col < (BOARD_SIZE : Int))

/-- `game->cells[row][col]` for `int` indices (only consulted after a
bounds check on the paths translated here). -/
def getCell (g : GameState) (row col : Int) : Cell :=
  g.cells (row.toNat, col.toNat)

/-- `void init_game(GameState *game)` from `fileio.c`: zero the struct,
empty board, black to move. -/
def init_game : GameState :=
  { cells := fun _ => Cell.Empty
    current_player := 1
    finished := false
    winner := 0
    undo_count := 0
    moves := [] }

/-- One `while` walk of the win/score routines: starting at `(r, c)` and
stepping by `(dr, dc)`, count the cells that are in-bounds and hold `me`.
The fuel argument is `BOARD_SIZE` at every call site (see module header). -/
def runLen (g : GameState) (me : Cell) (dr dc : Int) : Int → Int → Nat → Nat
  | _, _, 0 => 0
  | r, c, fuel+1 =>
    if within_board r c = true ∧ getCell g r c = me then
      1 + runLen g me dr dc (r + dr) (c + dc) fuel
    else 0

/-- The direction table of `check_win`: `dr = {0,1,1,-1}`, `dc = {1,0,1,1}`. -/
def winDirs : List (Int × Int) := [(0, 1), (1, 0), (1, 1), (-1, 1)]

/-- The `cnt` computed by `check_win` for one direction: the anchor counts
as 1, plus the two outward walks. -/
def axisTotal (g : GameState) (me : Cell) (r c : Int) (d : Int × Int) : Nat :=
  1 + runLen g me d.1 d.2 (r + d.1) (c + d.2) BOARD_SIZE
    + runLen g me (-d.1) (-d.2) (r - d.1) (c - d.2) BOARD_SIZE

/-- `int check_win(GameState *game, int last_row, int last_col)` from
`fileio.c`.  Returns the `int` result together with the state after the
call: when a direction reaches `WIN_LENGTH` the C code executes
`game->winner = me` before returning 1. -/
def check_win (g : GameState) (lastRow lastCol : Int) : Bool × GameState :=
  let me := getCell g lastRow lastCol
  if me = Cell.Empty then (false, g)
  else if winDirs.any (fun d => decide (axisTotal g me lastRow lastCol d ≥ WIN_LENGTH)) then
    (true, { g with winner := cellInt me })
  else (false, g)

/-- `void switch_player(GameState *game)` from `fileio.c`. -/
def switch_player (g : GameState) : GameState :=
  { g with current_player := if g.current_player = 1 then 2 else 1 }

/-- `int place_stone(GameState *game, int row, int col)` from `fileio.c`:
returns the state after the call and the `int` result (`false` = 0). -/
def place_stone (g : GameState) (row col : Int) : GameState × Bool :=
  if g.finished then (g, false)
  else if ¬ within_board row col = true then (g, false)
  else if getCell g row col ≠ Cell.Empty then (g, false)
  else
    let g1 : GameState :=
      { g with cells := Function.update g.cells (row.toNat, col.toNat) (colorOf g.current_player) }
    let g2 : GameState :=
      if g1.moves.length < BOARD_SIZE * BOARD_SIZE then
        { g1 with moves := g1.moves ++ [{ row := row, col := col, player := g1.current_player }] }
      else g1
    let wres := check_win g2 row col
    let g3 := wres.2
    if wres.1 then ({ g3 with finished := true, winner := g3.current_player }, true)
    else if g3.moves.length = BOARD_SIZE * BOARD_SIZE then
      ({ g3 with finished := true, winner := 0 }, true)
    else (switch_player g3, true)

/-- `int undo_last_move(GameState *game)` from `fileio.c`. -/
def undo_last_move (g : GameState) : GameState × Bool :=
  match g.moves.getLast? with
  | none => (g, false)
  | some last =>
    let cells1 :=
      if within_board last.row last.col = true then
        Function.update g.cells (last.row.toNat, last.col.toNat) Cell.Empty
      else g.cells
    let moves1 := g.moves.dropLast
    let cp : Int := if moves1.length = 0 then 1 else last.player
    ({ g with cells := cells1, moves := moves1, current_player := cp,
              finished := false, winner := 0 }, true)

/-- `int board_full(const GameState *game)` from `fileio.c`. -/
def board_full (g : GameState) : Bool :=
  decide (g.moves.length ≥ BOARD_SIZE * BOARD_SIZE)

/-! ### AI engine, translated from `src/ai.c` -/

/-- The direction table of `evaluate_pos` and the threat scan in `ai.c`:
`{{1,0},{0,1},{1,1},{1,-1}}`. -/
def aiDirs : List (Int × Int) := [(1, 0), (0, 1), (1, 1), (1, -1)]

/-- The contiguous run through `(row, col)` for stones of cell type `t`,
one direction `d`, anchor counted as 1 (the paired `while` walks of
`evaluate_pos` and of the threat scan). -/
def dirRun (g : GameState) (t : Cell) (row col : Int) (d : Int × Int) : Nat :=
  1 + runLen g t d.1 d.2 (row + d.1) (col + d.2) BOARD_SIZE
    + runLen g t (-d.1) (-d.2) (row - d.1) (col - d.2) BOARD_SIZE

/-- `static int evaluate_pos(const GameState *game, int row, int col, int player)`
from `ai.c`: the `score` accumulated over the four directions. -/
def evaluate_pos (g : GameState) (row col : Int) (player : Int) : Int :=
  let self_type := if player = 1 then Cell.Black else Cell.White
  let opp_type := if player = 1 then Cell.White else Cell.Black
  (aiDirs.map (fun d =>
    let self_cnt := dirRun g self_type row col d
    let opp_cnt := dirRun g opp_type row col d
    (if self_cnt ≥ WIN_LENGTH then (100000 : Int) else (self_cnt : Int) * (self_cnt : Int) * 10) +
    (if opp_cnt ≥ WIN_LENGTH then (90000 : Int) else (opp_cnt : Int) * (opp_cnt : Int) * 9))).sum

/-- Row-major enumeration of all board coordinates, as produced by the
`for (r) for (c)` double loops of `ai.c`. -/
def coords : List (Nat × Nat) :=
  (List.range BOARD_SIZE).flatMap (fun r => (List.range BOARD_SIZE).map (fun c => (r, c)))

/-- `game->cells[r][c] == CELL_EMPTY` for a scan coordinate. -/
def isEmptyAt (g : GameState) (p : Nat × Nat) : Bool :=
  decide (g.cells p = Cell.Empty)

/-- The second loop of `random_move`: walk the row-major coordinates,
decrementing `pick` on each empty cell, and return the cell where `pick`
hits 0. -/
def pickEmpty (g : GameState) : List (Nat × Nat) → Nat → Option (Nat × Nat)
  | [], _ => none
  | p :: rest, pick =>
    if isEmptyAt g p then
      if pick = 0 then some p else pickEmpty g rest (pick - 1)
    else pickEmpty g rest pick

/-- `static int random_move(GameState *game)` from `ai.c`: count the empty
cells, pick `rand() % empty_count`, place on that empty cell.  Returns the
state after the call and the `int` result. -/
def random_move (g : GameState) (rng : Nat → Nat) : GameState × Bool :=
  let empty_count := (coords.filter (fun p => isEmptyAt g p)).length
  if empty_count = 0 then (g, false)
  else
    match pickEmpty g coords (rng 0 % empty_count) with
    | some p => ((place_stone g (p.1 : Int) (p.2 : Int)).1, true)
    | none => (g, false)

/-- The difficulty-2 / fallback selection loop of `ai_move`: for each empty
cell, in row-major order, `score = evaluate_pos(...) + rand() % jmod`; keep
the cell on strict improvement (`score > best_score`).  `k` is the index of
the next `rand()` call; the accumulator is `(best cell, best_score)`. -/
def bestFold (g : GameState) (player : Int) (jmod : Nat) (rng : Nat → Nat) :
    List (Nat × Nat) → Nat → Option (Nat × Nat) → Int → Option (Nat × Nat) × Int
  | [], _, best, bestScore => (best, bestScore)
  | p :: rest, k, best, bestScore =>
    if isEmptyAt g p then
      let score := evaluate_pos g (p.1 : Int) (p.2 : Int) player + ((rng k % jmod : Nat) : Int)
      if score > bestScore then bestFold g player jmod rng rest (k + 1) (some p) score
      else bestFold g player jmod rng rest (k + 1) best bestScore
    else bestFold g player jmod rng rest k best bestScore

/-- The difficulty-2 branch of `ai_move`. -/
def tier2 (g : GameState) (rng : Nat → Nat) : GameState :=
  match (bestFold g g.current_player 5 rng coords 0 none (-1)).1 with
  | some p => (place_stone g (p.1 : Int) (p.2 : Int)).1
  | none => (random_move g rng).1

/-- `temp = *game; place_stone(&temp, r, c); temp.winner == self` — the
immediate-win test of the difficulty-3 scan. -/
def simSelfWin (g : GameState) (p : Nat × Nat) : Bool :=
  decide ((place_stone g (p.1 : Int) (p.2 : Int)).1.winner = g.current_player)

/-- `temp = *game; temp.current_player = opp; place_stone(&temp, r, c);
temp.winner == opp` — the immediate-block test of the difficulty-3 scan. -/
def simOppWin (g : GameState) (opp : Int) (p : Nat × Nat) : Bool :=
  decide ((place_stone { g with current_player := opp } (p.1 : Int) (p.2 : Int)).1.winner = opp)

/-- The combined win/block scan of the difficulty-3 branch: for each empty
cell, first test an own placement — on a win, stop the scan (`break`)
keeping that cell; otherwise test an opponent placement and overwrite the
block candidate on a hit.  Returns `(win cell, block candidate)`. -/
def scanWinBlock (g : GameState) (opp : Int) :
    List (Nat × Nat) → Option (Nat × Nat) → Option (Nat × Nat) × Option (Nat × Nat)
  | [], block => (none, block)
  | p :: rest, block =>
    if isEmptyAt g p then
      if simSelfWin g p then (some p, block)
      else if simOppWin g opp p then scanWinBlock g opp rest (some p)
      else scanWinBlock g opp rest block
    else scanWinBlock g opp rest block

/-- The `max_len` of the threat scan: the largest opponent run through the
empty cell over the four directions (`max_len` starts at 1). -/
def maxOppRun (g : GameState) (opp : Int) (p : Nat × Nat) : Nat :=
  aiDirs.foldl (fun acc d => max acc (dirRun g (colorOf opp) (p.1 : Int) (p.2 : Int) d)) 1

/-- The threat scan of the difficulty-3 branch: track the empty cell with
the strictly largest `max_len` (`threat_len` starts at 0, so the first
empty cell always becomes the candidate). -/
def threatFold (g : GameState) (opp : Int) :
    List (Nat × Nat) → Option (Nat × Nat) → Nat → Option (Nat × Nat) × Nat
  | [], tp, tl => (tp, tl)
  | p :: rest, tp, tl =>
    if isEmptyAt g p then
      let ml := maxOppRun g opp p
      if ml > tl then threatFold g opp rest (some p) ml
      else threatFold g opp rest tp tl
    else threatFold g opp rest tp tl

/-- The heuristic fallback at the end of the difficulty-3 branch
(`rand() % 3` jitter). -/
def tier3Fallback (g : GameState) (rng : Nat → Nat) : GameState :=
  match (bestFold g g.current_player 3 rng coords 0 none (-1)).1 with
  | some p => (place_stone g (p.1 : Int) (p.2 : Int)).1
  | none => (random_move g rng).1

/-- The difficulty-3 branch of `ai_move`: immediate win, else immediate
block, else threat mitigation (threshold `WIN_LENGTH - 2`), else heuristic
fallback. -/
def tier3 (g : GameState) (rng : Nat → Nat) : GameState :=
  let opp : Int := if g.current_player = 1 then 2 else 1
  let sc := scanWinBlock g opp coords none
  match sc.1 with
  | some p => (place_stone g (p.1 : Int) (p.2 : Int)).1
  | none =>
    match sc.2 with
    | some p => (place_stone g (p.1 : Int) (p.2 : Int)).1
    | none =>
      let th := threatFold g opp coords none 0
      let threshold : Nat := if WIN_LENGTH > 2 then WIN_LENGTH - 2 else 2
      if th.2 ≥ threshold then
        match th.1 with
        | some p => (place_stone g (p.1 : Int) (p.2 : Int)).1
        | none => tier3Fallback g rng
      else tier3Fallback g rng

/-- `void ai_move(GameState *game, int difficulty)` from `ai.c` (the
once-only seeding of the C library generator is subsumed by the injected
stream `rng`). -/
def ai_move (g : GameState) (difficulty : Int) (rng : Nat → Nat) : GameState :=
  if g.finished then g
  else if difficulty ≤ 1 then (random_move g rng).1
  else if difficulty = 2 then tier2 g rng
  else tier3 g rng

/-! ### Specification-side definitions

These are written from the wording of the specification, to be compared
with the source-translated definitions above. -/

/-- The set of board coordinates. -/
def boardCells : Finset (Nat × Nat) :=
  Finset.range BOARD_SIZE ×ˢ Finset.range BOARD_SIZE

/-- The number of non-Empty cells of the board (specification §3,
invariant 1). -/
def stoneCount (g : GameState) : Nat :=
  ∑ p ∈ boardCells, if g.cells p ≠ Cell.Empty then 1 else 0

/-- Modelled from the spec (§4.2): a winning line through `(r, c)` — some
axis carries `WIN_LENGTH` consecutive in-bounds cells, all holding `me`,
one of which is `(r, c)` itself (`k` is the position of the anchor inside
the window). -/
def hasWinLine (g : GameState) (r c : Int) (me : Cell) : Bool :=
  winDirs.any (fun d =>
    (List.range WIN_LENGTH).any (fun k =>
      (List.range WIN_LENGTH).all (fun i =>
        let rr := r + ((i : Int) - (k : Int)) * d.1
        let cc := c + ((i : Int) - (k : Int)) * d.2
        within_board rr cc && decide (getCell g rr cc = me))))

/-- Modelled from the spec (§4.3, Tier 2): the per-axis score contribution
and its sum, written after the specification text: if `self_run ≥
WIN_LENGTH` add 100000, else `self_run^2 * 10`; if `opp_run ≥ WIN_LENGTH`
add 90000, else `opp_run^2 * 9`. -/
def specCellScore (g : GameState) (row col : Int) (player : Int) : Int :=
  (aiDirs.map (fun d =>
    let self_run := dirRun g (colorOf player) row col d
    let opp_run := dirRun g (colorOf (if player = 1 then 2 else 1)) row col d
    (if self_run ≥ WIN_LENGTH then (100000 : Int) else (self_run : Int) ^ 2 * 10) +
    (if opp_run ≥ WIN_LENGTH then (90000 : Int) else (opp_run : Int) ^ 2 * 9))).sum

/-- The states reachable from `init_game` by successful `place_stone` and
`undo_last_move` calls. -/
inductive Reachable : GameState → Prop where
  | init : Reachable init_game
  | place {g : GameState} (row col : Int) :
      Reachable g → (place_stone g row col).2 = true →
      Reachable (place_stone g row col).1
  | undo {g : GameState} :
      Reachable g → (undo_last_move g).2 = true →
      Reachable (undo_last_move g).1

/-- The board position recorded by a `Move`. -/
def mpos (m : Move) : Nat × Nat := (m.row.toNat, m.col.toNat)

/-- The data-model invariants of §3 used in the proofs: move count equals
stone count, every recorded move is in bounds and its cell holds a stone,
and recorded positions are pairwise distinct. -/
def StateInv (g : GameState) : Prop :=
  g.moves.length = stoneCount g ∧
  (∀ m ∈ g.moves, within_board m.row m.col = true ∧ g.cells (mpos m) ≠ Cell.Empty) ∧
  g.moves.Pairwise (fun a b => mpos a ≠ mpos b)

/-- The board-and-history part of a successful placement: the target cell
set to the mover's color and the move appended. -/
def placedBoard (g : GameState) (row col : Int) : GameState :=
  { g with
    cells := Function.update g.cells (row.toNat, col.toNat) (colorOf g.current_player),
    moves := g.moves ++ [{ row := row, col := col, player := g.current_player }] }

/-! ### Concrete states used by witnesses and counterexamples -/

/-- A finished game with an empty in-range target (failure cause
`GameFinished`). -/
def stFinished : GameState := { init_game with finished := true }

/-- The state after Black plays (0,0) on a fresh board: cell (0,0) is
occupied, the game is not finished. -/
def stOccupied : GameState := (place_stone init_game 0 0).1

/-- A board holding six contiguous Black stones on row 9, columns 9–14,
with the `winner` field still 0. -/
def stSixRow : GameState :=
  { cells := fun p => if p.1 = 9 ∧ 9 ≤ p.2 ∧ p.2 ≤ 14 then Cell.Black else Cell.Empty
    current_player := 1
    finished := false
    winner := 0
    undo_count := 0
    moves := [] }

/-- A fresh board with `current_player` set to White and an empty move
history. -/
def stWhiteFirst : GameState := { init_game with current_player := 2 }

/-- A board where Black holds (9,9)–(9,13), five in a row, Black to
move. -/
def stFiveRow : GameState :=
  { cells := fun p => if p.1 = 9 ∧ 9 ≤ p.2 ∧ p.2 ≤ 13 then Cell.Black else Cell.Empty
    current_player := 1
    finished := false
    winner := 0
    undo_count := 0
    moves := [] }

/-- The empty cells of a scan list paired with the index of the `rand()`
call they receive in the selection loop (the index advances only on empty
cells). -/
def enumEmpt (g : GameState) : List (Nat × Nat) → Nat → List ((Nat × Nat) × Nat)
  | [], _ => []
  | p :: rest, k =>
    if isEmptyAt g p then (p, k) :: enumEmpt g rest (k + 1) else enumEmpt g rest k

/-- The jittered total score of an enumerated empty cell. -/
def jitterScore (g : GameState) (player : Int) (jmod : Nat) (rng : Nat → Nat)
    (t : (Nat × Nat) × Nat) : Int :=
  evaluate_pos g (t.1.1 : Int) (t.1.2 : Int) player + ((rng t.2 % jmod : Nat) : Int)

/-! ### Helper lemmas on the rules engine -/

/-- The state returned by `check_win`: on a win the C code wrote
`game->winner = me`; otherwise the state is untouched. -/
theorem check_win_snd_eq (g : GameState) (r c : Int) :
    (check_win g r c).2 =
      if (check_win g r c).1 then { g with winner := cellInt (getCell g r c) } else g := by
  unfold check_win
  by_cases h1 : getCell g r c = Cell.Empty
  · simp [h1]
  · by_cases h2 :
      winDirs.any (fun d => decide (axisTotal g (getCell g r c) r c d ≥ WIN_LENGTH)) = true
    · simp [h1, h2]
    · simp [h1, h2]

/-- A failing `place_stone` returns the state unchanged with result 0. -/
theorem place_stone_fail (g : GameState) (row col : Int)
    (h : g.finished = true ∨ within_board row col = false ∨ getCell g row col ≠ Cell.Empty) :
    place_stone g row col = (g, false) := by
  unfold place_stone
  rcases h with h | h | h
  · simp [h]
  · simp [h]
  · by_cases hf : g.finished
    · simp [hf]
    · by_cases hw : within_board row col = true
      · simp [hf, hw, h]
      · simp [hf, hw]

/-- A successful `place_stone` implies its three guards held. -/
theorem place_stone_succ_inv (g : GameState) (row col : Int)
    (h : (place_stone g row col).2 = true) :
    g.finished = false ∧ within_board row col = true ∧ getCell g row col = Cell.Empty := by
  by_cases hf : g.finished
  · rw [place_stone_fail g row col (Or.inl hf)] at h; cases h
  · by_cases hw : within_board row col = true
    · by_cases he : getCell g row col = Cell.Empty
      · exact ⟨Bool.eq_false_iff.mpr hf, hw, he⟩
      · rw [place_stone_fail g row col (Or.inr (Or.inr he))] at h; cases h
    · rw [place_stone_fail g row col (Or.inr (Or.inl (Bool.eq_false_iff.mpr hw)))] at h
      cases h

/-- Anatomy of a successful `place_stone` (under the capacity bound that
invariant 1 guarantees whenever an empty cell exists): mark the cell,
append the move, then either flag the win, flag the draw, or toggle the
player.  `check_win`'s own write of `winner` is absorbed by the
subsequent assignments of the winning branch. -/
theorem place_stone_success (g : GameState) (row col : Int)
    (hf : g.finished = false) (hw : within_board row col = true)
    (he : getCell g row col = Cell.Empty)
    (hlen : g.moves.length < BOARD_SIZE * BOARD_SIZE) :
    place_stone g row col =
      (if (check_win (placedBoard g row col) row col).1 then
        { placedBoard g row col with finished := true, winner := g.current_player }
      else if (placedBoard g row col).moves.length = BOARD_SIZE * BOARD_SIZE then
        { placedBoard g row col with finished := true, winner := 0 }
      else switch_player (placedBoard g row col), true) := by
  obtain ⟨cells, cp, fin, win, uc, mv⟩ := g
  simp only at hf hw he hlen
  subst hf
  have hcw := check_win_snd_eq (placedBoard ⟨cells, cp, false, win, uc, mv⟩ row col) row col
  by_cases hb : (check_win (placedBoard ⟨cells, cp, false, win, uc, mv⟩ row col) row col).1
  · simp only [placedBoard] at hcw hb ⊢
    simp only [getCell] at he
    simp [place_stone, hw, he, hlen, hb, hcw, getCell]
  · simp only [placedBoard] at hcw hb ⊢
    simp only [getCell] at he
    simp only [place_stone, hw, he, hlen, hb, hcw, getCell, Bool.false_eq_true, if_false,
      not_true, ite_false, ne_eq, not_false_eq_true, ite_true, if_true, List.length_append,
      List.length_singleton, not_true_eq_false]
    split <;> rfl

/-- `undo_last_move` on an empty history returns the state unchanged with
result 0. -/
theorem undo_last_move_nil (g : GameState) (h : g.moves = []) :
    undo_last_move g = (g, false) := by
  simp [undo_last_move, h]

/-- Anatomy of a successful `undo_last_move` when the popped move is in
bounds. -/
theorem undo_last_move_some (g : GameState) (last : Move)
    (h : g.moves.getLast? = some last) (hw : within_board last.row last.col = true) :
    undo_last_move g =
      ({ g with cells := Function.update g.cells (mpos last) Cell.Empty,
                moves := g.moves.dropLast,
                current_player := if g.moves.dropLast.length = 0 then 1 else last.player,
                finished := false, winner := 0 }, true) := by
  unfold undo_last_move
  rw [h]
  simp [hw, mpos]

/-! ### Claims C1, C4, C5, C9 -/

/-- Claim C1 (amended): a `place_stone` call that fails — because the game
is finished, the coordinates are out of range, or the target cell is
occupied — leaves the entire `GameState` unchanged and returns the failure
result 0; the same result value 0 is returned for all three failure
causes, so the cause is not distinguishable from the result alone. -/
theorem C1_place_failure_frame (g : GameState) (row col : Int)
    (h : g.finished = true ∨ within_board row col = false ∨ getCell g row col ≠ Cell.Empty) :
    place_stone g row col = (g, false) :=
  place_stone_fail g row col h

/-- Witness for C1: a concrete failing call (game already finished) leaves
the concrete state untouched. -/
theorem C1_witness :
    stFinished.finished = true ∧ place_stone stFinished 3 4 = (stFinished, false) :=
  ⟨rfl, C1_place_failure_frame stFinished 3 4 (Or.inl rfl)⟩

/-- Counterexample for C1 as stated: three failing calls with three
different causes (finished game, occupied cell, out-of-range coordinate)
all return the same result value, so the caller cannot tell the matching
error apart from the result — `place_stone` reports every failure as the
single value 0. -/
theorem C1_counterexample :
    stFinished.finished = true ∧ getCell stFinished 0 0 = Cell.Empty ∧
    within_board 0 0 = true ∧
    stOccupied.finished = false ∧ getCell stOccupied 0 0 ≠ Cell.Empty ∧
    within_board (-1) 0 = false ∧
    (place_stone stFinished 0 0).2 = (place_stone stOccupied 0 0).2 ∧
    (place_stone stOccupied (-1) 0).2 = (place_stone stFinished 0 0).2 := by
  decide

/-- Claim C4: with a non-empty history, `undo_last_move` pops the last
move, clears its (in-bounds, per invariant 4) cell to Empty, sets
`current_player` to that move's mover — or to Black when the history
becomes empty — clears `finished` and `winner` unconditionally and returns
true; with an empty history it changes nothing and returns false. -/
theorem C4_undo_spec (g : GameState) :
    (g.moves = [] → undo_last_move g = (g, false)) ∧
    (∀ last, g.moves.getLast? = some last → within_board last.row last.col = true →
      undo_last_move g =
        ({ g with cells := Function.update g.cells (mpos last) Cell.Empty,
                  moves := g.moves.dropLast,
                  current_player := if g.moves.dropLast.length = 0 then 1 else last.player,
                  finished := false, winner := 0 }, true)) :=
  ⟨fun h => undo_last_move_nil g h,
   fun last h hw => undo_last_move_some g last h hw⟩

/-- Witness for C4: undoing the single recorded move of a concrete state
clears the cell, empties the history and hands the turn back to Black. -/
theorem C4_witness :
    undo_last_move stOccupied =
      ({ stOccupied with
          cells := Function.update stOccupied.cells (mpos { row := 0, col := 0, player := 1 }) Cell.Empty,
          moves := stOccupied.moves.dropLast,
          current_player := if stOccupied.moves.dropLast.length = 0 then 1 else (1 : Int),
          finished := false, winner := 0 }, true) :=
  (C4_undo_spec stOccupied).2 { row := 0, col := 0, player := 1 } (by decide) (by decide)

/-- Claim C9 (amended): `check_win` returns whether a win just occurred
and leaves every field of the state unchanged — except that, when it does
report a win, it writes the just-played stone's color into `winner`. -/
theorem C9_check_win_frame (g : GameState) (r c : Int) :
    (check_win g r c).2 =
      if (check_win g r c).1 then { g with winner := cellInt (getCell g r c) } else g :=
  check_win_snd_eq g r c

/-- Counterexample for C9 as stated: on a board with six Black stones in a
row and `winner = 0`, `check_win` reports the win and mutates the `winner`
field of the state it was given, so it is not pure in the claimed sense. -/
theorem C9_counterexample :
    (check_win stSixRow 9 12).1 = true ∧ stSixRow.winner = 0 ∧
    (check_win stSixRow 9 12).2.winner = 1 := by
  decide

/-- Claim C5 (amended): after any successful `place_stone`, an immediate
`undo_last_move` restores exactly the prior state — provided the prior
state satisfies the data-model invariants relevant here (`winner = 0`
while unfinished, history shorter than the board capacity) and, when its
history is empty, has Black to move (true of every state the system
constructs, since undo-to-empty and a fresh game both force Black). -/
theorem C5_place_undo_roundtrip (g : GameState) (row col : Int)
    (hsucc : (place_stone g row col).2 = true)
    (hwin : g.winner = 0)
    (hlen : g.moves.length < BOARD_SIZE * BOARD_SIZE)
    (hcp : g.moves = [] → g.current_player = 1) :
    undo_last_move (place_stone g row col).1 = (g, true) := by
  obtain ⟨hf, hw, he⟩ := place_stone_succ_inv g row col hsucc
  rw [place_stone_success g row col hf hw he hlen]
  set m : Move := { row := row, col := col, player := g.current_player } with hm
  have hlast : ∀ S : GameState, S.moves = g.moves ++ [m] → S.moves.getLast? = some m := by
    intro S hS; rw [hS]; exact List.getLast?_concat _
  have hcells : Function.update
      (Function.update g.cells (row.toNat, col.toNat) (colorOf g.current_player))
      (mpos m) Cell.Empty = g.cells := by
    have : mpos m = (row.toNat, col.toNat) := rfl
    rw [this, Function.update_idem]
    have : Cell.Empty = g.cells (row.toNat, col.toNat) := (he).symm
    rw [this, Function.update_eq_self]
  have hdrop : (g.moves ++ [m]).dropLast = g.moves := List.dropLast_concat
  have hcp2 : (if (g.moves ++ [m]).dropLast.length = 0 then (1 : Int) else m.player)
      = g.current_player := by
    rw [hdrop]
    rcases hmv : g.moves with _ | ⟨a, l⟩
    · simpa using (hcp hmv).symm
    · simp [hm]
  split
  · rw [undo_last_move_some _ m (by simp [placedBoard, hm]) hw]
    obtain ⟨cells, cp, fin, win, uc, mv⟩ := g
    simp only at hf hwin
    subst hf hwin
    simp only [placedBoard] at hcells hdrop hcp2 ⊢
    simp_all
  · split
    · rw [undo_last_move_some _ m (by simp [placedBoard, hm]) hw]
      obtain ⟨cells, cp, fin, win, uc, mv⟩ := g
      simp only at hf hwin
      subst hf hwin
      simp only [placedBoard] at hcells hdrop hcp2 ⊢
      simp_all
    · rw [undo_last_move_some _ m (by simp [placedBoard, switch_player, hm]) hw]
      obtain ⟨cells, cp, fin, win, uc, mv⟩ := g
      simp only at hf hwin
      subst hf hwin
      simp only [placedBoard, switch_player] at hcells hdrop hcp2 ⊢
      simp_all

/-- Witness for C5: placing at (5,5) on a concrete one-stone state and
undoing restores that state exactly. -/
theorem C5_witness :
    undo_last_move (place_stone stOccupied 5 5).1 = (stOccupied, true) :=
  C5_place_undo_roundtrip stOccupied 5 5 (by decide) (by decide) (by decide) (by decide)

/-- Counterexample for C5 as stated: on a state with empty history and
White to move (a `GameState` value the claim quantifies over, though the
program never constructs it), place-then-undo hands the turn to Black
instead of restoring White, because `undo_last_move` forces
`current_player = 1` whenever the history becomes empty. -/
theorem C5_counterexample :
    (place_stone stWhiteFirst 0 0).2 = true ∧ stWhiteFirst.current_player = 2 ∧
    (undo_last_move (place_stone stWhiteFirst 0 0).1).1.current_player = 1 := by
  decide

/-! ### Frame property of the AI engine (C8) -/

/-- `random_move` either leaves the state alone or performs a single
`place_stone` on the given state. -/
theorem random_move_frame (g : GameState) (rng : Nat → Nat) :
    (random_move g rng).1 = g ∨
    ∃ row col : Int, (random_move g rng).1 = (place_stone g row col).1 := by
  unfold random_move
  by_cases h : (coords.filter (fun p => isEmptyAt g p)).length = 0
  · left; simp [h]
  · rcases hp : pickEmpty g coords (rng 0 % (coords.filter (fun p => isEmptyAt g p)).length) with
      _ | p
    · left; simp [h, hp]
    · right; exact ⟨(p.1 : Int), (p.2 : Int), by simp [h, hp]⟩

/-- `tier2` either leaves the state alone or performs a single
`place_stone` on the given state. -/
theorem tier2_frame (g : GameState) (rng : Nat → Nat) :
    tier2 g rng = g ∨ ∃ row col : Int, tier2 g rng = (place_stone g row col).1 := by
  unfold tier2
  rcases hb : (bestFold g g.current_player 5 rng coords 0 none (-1)).1 with _ | p
  · simpa [hb] using random_move_frame g rng
  · right; exact ⟨(p.1 : Int), (p.2 : Int), by simp [hb]⟩

/-- The difficulty-3 heuristic fallback either leaves the state alone or
performs a single `place_stone` on the given state. -/
theorem tier3Fallback_frame (g : GameState) (rng : Nat → Nat) :
    tier3Fallback g rng = g ∨
    ∃ row col : Int, tier3Fallback g rng = (place_stone g row col).1 := by
  unfold tier3Fallback
  rcases hb : (bestFold g g.current_player 3 rng coords 0 none (-1)).1 with _ | p
  · simpa [hb] using random_move_frame g rng
  · right; exact ⟨(p.1 : Int), (p.2 : Int), by simp [hb]⟩

/-- `tier3` either leaves the state alone or performs a single
`place_stone` on the given state. -/
theorem tier3_frame (g : GameState) (rng : Nat → Nat) :
    tier3 g rng = g ∨ ∃ row col : Int, tier3 g rng = (place_stone g row col).1 := by
  unfold tier3
  rcases hsc : (scanWinBlock g (if g.current_player = 1 then 2 else 1) coords none).1 with _ | p
  · rcases hbl : (scanWinBlock g (if g.current_player = 1 then 2 else 1) coords none).2 with _ | q
    · by_cases hth :
        (threatFold g (if g.current_player = 1 then 2 else 1) coords none 0).2 ≥
          (if WIN_LENGTH > 2 then WIN_LENGTH - 2 else 2)
      · rcases htp : (threatFold g (if g.current_player = 1 then 2 else 1) coords none 0).1 with
          _ | t
        · simpa [hsc, hbl, hth, htp] using tier3Fallback_frame g rng
        · right; exact ⟨(t.1 : Int), (t.2 : Int), by simp [hsc, hbl, hth, htp]⟩
      · simpa [hsc, hbl, hth] using tier3Fallback_frame g rng
    · right; exact ⟨(q.1 : Int), (q.2 : Int), by simp [hsc, hbl]⟩
  · right; exact ⟨(p.1 : Int), (p.2 : Int), by simp [hsc]⟩

/-- Claim C8: the AI decision has no side effect on the state it reads
beyond the cell it chooses to play: at every difficulty the resulting
state is either the given state unchanged or the given state with exactly
one `place_stone` applied to it — every simulated placement of the
selection scans happens on a throwaway copy and never leaks into the
result. -/
theorem C8_ai_no_side_effect (g : GameState) (difficulty : Int) (rng : Nat → Nat) :
    ai_move g difficulty rng = g ∨
    ∃ row col : Int, ai_move g difficulty rng = (place_stone g row col).1 := by
  unfold ai_move
  by_cases hf : g.finished
  · left; simp [hf]
  · by_cases h1 : difficulty ≤ 1
    · simpa [hf, h1] using random_move_frame g rng
    · by_cases h2 : difficulty = 2
      · simpa [hf, h1, h2] using tier2_frame g rng
      · simpa [hf, h1, h2] using tier3_frame g rng

/-! ### Characterization of the direction walks (towards C3) -/

/-- Every step counted by a walk is an in-bounds cell holding `me`. -/
theorem runLen_mem (g : GameState) (me : Cell) (dr dc : Int) :
    ∀ (fuel : Nat) (r c : Int) (i : Nat), i < runLen g me dr dc r c fuel →
      within_board (r + i * dr) (c + i * dc) = true ∧
      getCell g (r + i * dr) (c + i * dc) = me := by
  intro fuel
  induction fuel with
  | zero => intro r c i h; simp [runLen] at h
  | succ n ih =>
    intro r c i h
    rw [runLen] at h
    by_cases hc : within_board r c = true ∧ getCell g r c = me
    · rw [if_pos hc] at h
      rcases i with _ | j
      · simpa using hc
      · have hj : j < runLen g me dr dc (r + dr) (c + dc) n := by omega
        have := ih (r + dr) (c + dc) j hj
        have hr : r + dr + (j : Int) * dr = r + ((j + 1 : Nat) : Int) * dr := by
          push_cast; ring
        have hcc : c + dc + (j : Int) * dc = c + ((j + 1 : Nat) : Int) * dc := by
          push_cast; ring
        rwa [hr, hcc] at this
    · rw [if_neg hc] at h
      omega

/-- A stretch of `n` in-bounds `me`-cells along the walk direction forces
the walk to count at least `n` (given enough fuel). -/
theorem runLen_ge (g : GameState) (me : Cell) (dr dc : Int) :
    ∀ (fuel n : Nat) (r c : Int), n ≤ fuel →
      (∀ i : Nat, i < n →
        within_board (r + i * dr) (c + i * dc) = true ∧
        getCell g (r + i * dr) (c + i * dc) = me) →
      n ≤ runLen g me dr dc r c fuel := by
  intro fuel
  induction fuel with
  | zero => intro n r c hn _; omega
  | succ m ih =>
    intro n r c hn hok
    rcases n with _ | k
    · omega
    · have h0 := hok 0 (by omega)
      simp only [Nat.cast_zero, zero_mul, add_zero] at h0
      rw [runLen, if_pos h0]
      have hk : k ≤ runLen g me dr dc (r + dr) (c + dc) m := by
        apply ih k (r + dr) (c + dc) (by omega)
        intro i hi
        have := hok (i + 1) (by omega)
        have hr : r + ((i + 1 : Nat) : Int) * dr = r + dr + (i : Int) * dr := by
          push_cast; ring
        have hcc : c + ((i + 1 : Nat) : Int) * dc = c + dc + (i : Int) * dc := by
          push_cast; ring
        rwa [hr, hcc] at this
      omega

/-- An axis total of at least `WIN_LENGTH` through an anchor cell holding
`me` is the same as a window of `WIN_LENGTH` consecutive in-bounds
`me`-cells containing the anchor (at offset `k` inside the window). -/
theorem axisTotal_window (g : GameState) (me : Cell) (r c : Int) (d : Int × Int)
    (hanchor : within_board r c = true ∧ getCell g r c = me) :
    axisTotal g me r c d ≥ WIN_LENGTH ↔
    ∃ k : Nat, k < WIN_LENGTH ∧ ∀ i : Nat, i < WIN_LENGTH →
      within_board (r + ((i : Int) - (k : Int)) * d.1) (c + ((i : Int) - (k : Int)) * d.2) = true ∧
      getCell g (r + ((i : Int) - (k : Int)) * d.1) (c + ((i : Int) - (k : Int)) * d.2) = me := by
  unfold axisTotal WIN_LENGTH
  set f := runLen g me d.1 d.2 (r + d.1) (c + d.2) BOARD_SIZE with hf
  set b := runLen g me (-d.1) (-d.2) (r - d.1) (c - d.2) BOARD_SIZE with hb
  constructor
  · intro htot
    refine ⟨min b 5, by omega, ?_⟩
    intro i hi
    rcases Nat.lt_trichotomy i (min b 5) with hik | hik | hik
    · -- anchor side: offset is negative, use the backward walk
      set m : Nat := min b 5 - i with hm
      have hm1 : 1 ≤ m := by omega
      have hmb : m ≤ b := by omega
      have hstep := runLen_mem g me (-d.1) (-d.2) BOARD_SIZE (r - d.1) (c - d.2)
        (m - 1) (by omega)
      have hr : r - d.1 + ((m - 1 : Nat) : Int) * -d.1
          = r + ((i : Int) - ((min b 5 : Nat) : Int)) * d.1 := by
        have : ((m - 1 : Nat) : Int) = (m : Int) - 1 := by omega
        rw [this]
        have : ((i : Int) - ((min b 5 : Nat) : Int)) = -(m : Int) := by omega
        rw [this]; ring
      have hcc : c - d.2 + ((m - 1 : Nat) : Int) * -d.2
          = c + ((i : Int) - ((min b 5 : Nat) : Int)) * d.2 := by
        have : ((m - 1 : Nat) : Int) = (m : Int) - 1 := by omega
        rw [this]
        have : ((i : Int) - ((min b 5 : Nat) : Int)) = -(m : Int) := by omega
        rw [this]; ring
      rwa [hr, hcc] at hstep
    · -- the anchor itself
      have : ((i : Int) - ((min b 5 : Nat) : Int)) = 0 := by omega
      rw [this]
      simpa using hanchor
    · -- offset positive: use the forward walk
      set m : Nat := i - min b 5 with hm
      have hm1 : 1 ≤ m := by omega
      have hmf : m ≤ f := by omega
      have hstep := runLen_mem g me d.1 d.2 BOARD_SIZE (r + d.1) (c + d.2)
        (m - 1) (by omega)
      have hr : r + d.1 + ((m - 1 : Nat) : Int) * d.1
          = r + ((i : Int) - ((min b 5 : Nat) : Int)) * d.1 := by
        have : ((m - 1 : Nat) : Int) = (m : Int) - 1 := by omega
        rw [this]
        have : ((i : Int) - ((min b 5 : Nat) : Int)) = (m : Int) := by omega
        rw [this]; ring
      have hcc : c + d.2 + ((m - 1 : Nat) : Int) * d.2
          = c + ((i : Int) - ((min b 5 : Nat) : Int)) * d.2 := by
        have : ((m - 1 : Nat) : Int) = (m : Int) - 1 := by omega
        rw [this]
        have : ((i : Int) - ((min b 5 : Nat) : Int)) = (m : Int) := by omega
        rw [this]; ring
      rwa [hr, hcc] at hstep
  · rintro ⟨k, hk, hwin⟩
    have hbk : k ≤ b := by
      rw [hb]
      apply runLen_ge g me (-d.1) (-d.2) BOARD_SIZE k (r - d.1) (c - d.2)
        (by unfold BOARD_SIZE; omega)
      intro i hi
      have := hwin (k - (i + 1)) (by omega)
      have hr : r + (((k - (i + 1) : Nat) : Int) - (k : Int)) * d.1
          = r - d.1 + (i : Int) * -d.1 := by
        have : ((k - (i + 1) : Nat) : Int) - (k : Int) = -((i : Int) + 1) := by omega
        rw [this]; ring
      have hcc : c + (((k - (i + 1) : Nat) : Int) - (k : Int)) * d.2
          = c - d.2 + (i : Int) * -d.2 := by
        have : ((k - (i + 1) : Nat) : Int) - (k : Int) = -((i : Int) + 1) := by omega
        rw [this]; ring
      rwa [hr, hcc] at this
    have hfk : 5 - k ≤ f := by
      rw [hf]
      apply runLen_ge g me d.1 d.2 BOARD_SIZE (5 - k) (r + d.1) (c + d.2)
        (by unfold BOARD_SIZE; omega)
      intro i hi
      have := hwin (k + i + 1) (by omega)
      have hr : r + (((k + i + 1 : Nat) : Int) - (k : Int)) * d.1
          = r + d.1 + (i : Int) * d.1 := by
        have : ((k + i + 1 : Nat) : Int) - (k : Int) = (i : Int) + 1 := by omega
        rw [this]; ring
      have hcc : c + (((k + i + 1 : Nat) : Int) - (k : Int)) * d.2
          = c + d.2 + (i : Int) * d.2 := by
        have : ((k + i + 1 : Nat) : Int) - (k : Int) = (i : Int) + 1 := by omega
        rw [this]; ring
      rwa [hr, hcc] at this
    omega

/-- The boolean result of `check_win`, as an existential over the four
directions. -/
theorem check_win_fst_iff (g : GameState) (r c : Int)
    (hne : getCell g r c ≠ Cell.Empty) :
    (check_win g r c).1 = true ↔
    ∃ d ∈ winDirs, axisTotal g (getCell g r c) r c d ≥ WIN_LENGTH := by
  unfold check_win
  by_cases h2 :
    winDirs.any (fun d => decide (axisTotal g (getCell g r c) r c d ≥ WIN_LENGTH)) = true
  · simp only [hne, if_neg, ite_false, h2, if_true, ite_true]
    simp only [List.any_eq_true, decide_eq_true_eq] at h2
    simpa using h2
  · simp only [hne, if_neg, ite_false, h2, if_false, ite_false]
    simp only [List.any_eq_true, decide_eq_true_eq] at h2
    simpa using h2

/-- `hasWinLine` unfolded to its propositional form. -/
theorem hasWinLine_iff (g : GameState) (r c : Int) (me : Cell) :
    hasWinLine g r c me = true ↔
    ∃ d ∈ winDirs, ∃ k : Nat, k < WIN_LENGTH ∧ ∀ i : Nat, i < WIN_LENGTH →
      within_board (r + ((i : Int) - (k : Int)) * d.1) (c + ((i : Int) - (k : Int)) * d.2) = true ∧
      getCell g (r + ((i : Int) - (k : Int)) * d.1) (c + ((i : Int) - (k : Int)) * d.2) = me := by
  simp [hasWinLine, List.any_eq_true, List.all_eq_true, List.mem_range, Bool.and_eq_true,
    decide_eq_true_eq]

/-- The win report of `check_win` is exactly the existence of a
`WIN_LENGTH` window of the anchor's color through the anchor. -/
theorem check_win_iff_hasWinLine (g : GameState) (r c : Int)
    (hw : within_board r c = true) (hne : getCell g r c ≠ Cell.Empty) :
    (check_win g r c).1 = true ↔ hasWinLine g r c (getCell g r c) = true := by
  rw [check_win_fst_iff g r c hne, hasWinLine_iff]
  constructor
  · rintro ⟨d, hd, hx⟩
    exact ⟨d, hd, (axisTotal_window g (getCell g r c) r c d ⟨hw, rfl⟩).mp hx⟩
  · rintro ⟨d, hd, hx⟩
    exact ⟨d, hd, (axisTotal_window g (getCell g r c) r c d ⟨hw, rfl⟩).mpr hx⟩

/-- `hasWinLine` depends only on the board. -/
theorem hasWinLine_congr (g1 g2 : GameState) (h : g1.cells = g2.cells) (r c : Int) (me : Cell) :
    hasWinLine g1 r c me = hasWinLine g2 r c me := by
  simp [hasWinLine, getCell, h]

/-- `colorOf` never yields an empty cell. -/
theorem colorOf_ne_empty (p : Int) : colorOf p ≠ Cell.Empty := by
  unfold colorOf; split <;> simp

/-- Claim C3: the win detector walks outward in both directions along each
of the four axes, counting contiguous same-color cells with the anchor as
1, and reports a win exactly when some axis total reaches `WIN_LENGTH` —
equivalently, exactly when a window of six consecutive same-color
in-bounds cells through the anchor exists; consequently a successful
`place_stone` sets `finished = true` with `winner` = the mover exactly
when the placed stone completes such a window — not on any earlier move
(a placement completing no window never reports the mover as winner) and
not later. -/
theorem C3_win_detection :
    (∀ (g : GameState) (r c : Int), within_board r c = true → getCell g r c ≠ Cell.Empty →
      ((check_win g r c).1 = true ↔ hasWinLine g r c (getCell g r c) = true)) ∧
    (∀ (g : GameState) (row col : Int),
      g.finished = false → g.winner = 0 →
      (g.current_player = 1 ∨ g.current_player = 2) →
      within_board row col = true → getCell g row col = Cell.Empty →
      g.moves.length < BOARD_SIZE * BOARD_SIZE →
      (((place_stone g row col).1.finished = true ∧
        (place_stone g row col).1.winner = g.current_player) ↔
        hasWinLine (place_stone g row col).1 row col (colorOf g.current_player) = true)) := by
  constructor
  · exact fun g r c hw hne => check_win_iff_hasWinLine g r c hw hne
  · intro g row col hf hwin hcp hw he hlen
    rw [place_stone_success g row col hf hw he hlen]
    have hanchor : getCell (placedBoard g row col) row col = colorOf g.current_player := by
      simp [placedBoard, getCell, Function.update_same]
    have hne : getCell (placedBoard g row col) row col ≠ Cell.Empty := by
      rw [hanchor]; exact colorOf_ne_empty _
    have hiff := check_win_iff_hasWinLine (placedBoard g row col) row col hw hne
    rw [hanchor] at hiff
    by_cases hb : (check_win (placedBoard g row col) row col).1
    · simp only [hb, if_true, ite_true]
      have hcells : ({ placedBoard g row col with
          finished := true, winner := g.current_player } : GameState).cells
          = (placedBoard g row col).cells := rfl
      rw [hasWinLine_congr _ _ hcells]
      simp only [← hiff, hb]
      simp
    · simp only [hb, Bool.false_eq_true, if_false, ite_false]
      have hnl2 : hasWinLine (placedBoard g row col) row col (colorOf g.current_player)
          = false := by
        cases h : hasWinLine (placedBoard g row col) row col (colorOf g.current_player)
        · rfl
        · exact absurd (hiff.mpr h) hb
      by_cases hdraw : (placedBoard g row col).moves.length = BOARD_SIZE * BOARD_SIZE
      · simp only [hdraw, if_true, ite_true]
        have hcells : ({ placedBoard g row col with
            finished := true, winner := 0 } : GameState).cells
            = (placedBoard g row col).cells := rfl
        rw [hasWinLine_congr _ _ hcells, hnl2]
        constructor
        · rintro ⟨-, h0⟩
          exfalso
          rcases hcp with h | h <;> rw [h] at h0 <;> exact absurd h0 (by decide)
        · intro h; cases h
      · simp only [hdraw, if_false, ite_false]
        have hcells : (switch_player (placedBoard g row col)).cells
            = (placedBoard g row col).cells := rfl
        rw [hasWinLine_congr _ _ hcells, hnl2]
        have hfin : (switch_player (placedBoard g row col)).finished = false := by
          simp [switch_player, placedBoard, hf]
        constructor
        · rintro ⟨h1, -⟩
          rw [hfin] at h1; cases h1
        · intro h; cases h

/-- Witness for C3: on a board where Black has five stones at
(9,9)–(9,13), placing at (9,14) completes a window of six, and the
equivalence instantiates to that concrete placement. -/
theorem C3_witness :
    ((place_stone stFiveRow 9 14).1.finished = true ∧
      (place_stone stFiveRow 9 14).1.winner = stFiveRow.current_player) ↔
    hasWinLine (place_stone stFiveRow 9 14).1 9 14 (colorOf stFiveRow.current_player) = true := by
  exact C3_win_detection.2 stFiveRow 9 14 (by decide) (by decide) (Or.inl (by decide))
    (by decide) (by decide) (by decide)

/-! ### Characterization of the difficulty-3 win/block scan (C6) -/

/-- `getLast?` of a cons, via `Option.or`. -/
theorem getLast?_cons_or {α : Type} (a : α) (l : List α) :
    (a :: l).getLast? = l.getLast?.or (some a) := by
  induction l generalizing a with
  | nil => simp
  | cons x xs ih =>
    rw [List.getLast?_cons_cons, ih x]
    cases xs.getLast? <;> simp

/-- The win component of the scan is the first empty cell whose own-side
simulation wins. -/
theorem scanWinBlock_fst (g : GameState) (opp : Int) :
    ∀ (l : List (Nat × Nat)) (b : Option (Nat × Nat)),
      (scanWinBlock g opp l b).1 =
        (l.filter (fun q => isEmptyAt g q && simSelfWin g q)).head? := by
  intro l
  induction l with
  | nil => intro b; rfl
  | cons p rest ih =>
    intro b
    by_cases he : isEmptyAt g p
    · by_cases hs : simSelfWin g p
      · simp [scanWinBlock, he, hs, List.filter_cons]
      · by_cases ho : simOppWin g opp p
        · simp [scanWinBlock, he, hs, ho, List.filter_cons, ih]
        · simp [scanWinBlock, he, hs, ho, List.filter_cons, ih]
    · simp [scanWinBlock, he, List.filter_cons, ih]

/-- When no cell wins outright, the block component of the scan is the last
empty cell whose opponent simulation wins (or the accumulator if none). -/
theorem scanWinBlock_snd (g : GameState) (opp : Int) :
    ∀ (l : List (Nat × Nat)) (b : Option (Nat × Nat)),
      l.filter (fun q => isEmptyAt g q && simSelfWin g q) = [] →
      (scanWinBlock g opp l b).2 =
        ((l.filter (fun q => isEmptyAt g q && simOppWin g opp q)).getLast?).or b := by
  intro l
  induction l with
  | nil => intro b _; rfl
  | cons p rest ih =>
    intro b hwf
    rw [List.filter_cons] at hwf
    by_cases he : isEmptyAt g p
    · by_cases hs : simSelfWin g p
      · simp [he, hs] at hwf
      · have hwf2 : rest.filter (fun q => isEmptyAt g q && simSelfWin g q) = [] := by
          by_cases hb : (isEmptyAt g p && simSelfWin g p) = true
          · simp [hs] at hb
          · rwa [if_neg hb] at hwf
        by_cases ho : simOppWin g opp p
        · rw [List.filter_cons]
          simp only [he, ho, Bool.and_true, Bool.and_self, if_pos, ite_true]
          rw [getLast?_cons_or]
          simp only [scanWinBlock, he, hs, ho, Bool.false_eq_true, if_false, if_true,
            ite_true, ite_false]
          rw [ih (some p) hwf2, Option.or_assoc]
          simp
        · rw [List.filter_cons]
          simp only [he, ho, Bool.and_false, Bool.false_eq_true, if_false, ite_false]
          simp only [scanWinBlock, he, hs, ho, Bool.false_eq_true, if_false, if_true,
            ite_true, ite_false]
          exact ih b hwf2
    · have hwf2 : rest.filter (fun q => isEmptyAt g q && simSelfWin g q) = [] := by
        by_cases hb : (isEmptyAt g p && simSelfWin g p) = true
        · simp [he] at hb
        · rwa [if_neg hb] at hwf
      rw [List.filter_cons]
      simp only [he, Bool.false_and, Bool.false_eq_true, if_false, ite_false]
      simp only [scanWinBlock, he, Bool.false_eq_true, if_false, ite_false]
      exact ih b hwf2

/-- Claim C6: at difficulty 3, for an unfinished state, the AI evaluates
immediate win strictly before immediate block: it plays the first cell in
row-major order whose own-side simulation reports the AI as winner (the
scan stops there); only when no such cell exists does it play a blocking
cell, and among several blocking cells it plays the last one in row-major
scan order. -/
theorem C6_tier3_win_before_block (g : GameState) (rng : Nat → Nat)
    (hf : g.finished = false) :
    (∀ p : Nat × Nat,
      (coords.filter (fun q => isEmptyAt g q && simSelfWin g q)).head? = some p →
      ai_move g 3 rng = (place_stone g (p.1 : Int) (p.2 : Int)).1) ∧
    (coords.filter (fun q => isEmptyAt g q && simSelfWin g q) = [] →
      ∀ p : Nat × Nat,
        (coords.filter (fun q =>
          isEmptyAt g q && simOppWin g (if g.current_player = 1 then 2 else 1) q)).getLast?
          = some p →
        ai_move g 3 rng = (place_stone g (p.1 : Int) (p.2 : Int)).1) := by
  have hmove : ai_move g 3 rng = tier3 g rng := by
    unfold ai_move
    rw [hf]
    norm_num
  constructor
  · intro p hp
    rw [hmove]
    simp only [tier3]
    rw [scanWinBlock_fst g (if g.current_player = 1 then 2 else 1) coords none, hp]
  · intro hwf p hp
    rw [hmove]
    simp only [tier3]
    rw [scanWinBlock_fst g (if g.current_player = 1 then 2 else 1) coords none, hwf]
    rw [scanWinBlock_snd g (if g.current_player = 1 then 2 else 1) coords none hwf, hp]
    simp

/-- Witness for C6: with Black holding (9,9)–(9,13) and Black to move, the
first winning cell in row-major order is (9,8), and the difficulty-3 AI
plays exactly there. -/
theorem C6_witness :
    ai_move stFiveRow 3 (fun _ => 0) = (place_stone stFiveRow (9 : Int) (8 : Int)).1 :=
  (C6_tier3_win_before_block stFiveRow (fun _ => 0) rfl).1 (9, 8) (by decide)

/-- Members of the enumeration are empty cells of the scan list. -/
theorem enumEmpt_mem (g : GameState) :
    ∀ (l : List (Nat × Nat)) (k : Nat) (t : (Nat × Nat) × Nat),
      t ∈ enumEmpt g l k → t.1 ∈ l ∧ isEmptyAt g t.1 = true := by
  intro l
  induction l with
  | nil => intro k t h; simp [enumEmpt] at h
  | cons p rest ih =>
    intro k t h
    by_cases he : isEmptyAt g p
    · rw [enumEmpt, if_pos he] at h
      rcases List.mem_cons.mp h with h | h
      · subst h; exact ⟨List.mem_cons_self p rest, he⟩
      · obtain ⟨h1, h2⟩ := ih (k + 1) t h
        exact ⟨List.mem_cons_of_mem p h1, h2⟩
    · rw [enumEmpt, if_neg he] at h
      obtain ⟨h1, h2⟩ := ih k t h
      exact ⟨List.mem_cons_of_mem p h1, h2⟩

/-- If the scan list contains an empty cell, the enumeration is
non-empty. -/
theorem enumEmpt_ne_nil (g : GameState) :
    ∀ (l : List (Nat × Nat)) (k : Nat) (p : Nat × Nat),
      p ∈ l → isEmptyAt g p = true → enumEmpt g l k ≠ [] := by
  intro l
  induction l with
  | nil => intro k p h; simp at h
  | cons q rest ih =>
    intro k p hmem he
    by_cases hq : isEmptyAt g q
    · rw [enumEmpt, if_pos hq]; simp
    · rw [enumEmpt, if_neg hq]
      rcases List.mem_cons.mp hmem with h | h
      · subst h; exact absurd he hq
      · exact ih k p h he

/-- The best score tracked by the selection loop never decreases. -/
theorem bestFold_snd_ge (g : GameState) (player : Int) (jmod : Nat) (rng : Nat → Nat) :
    ∀ (l : List (Nat × Nat)) (k : Nat) (b : Option (Nat × Nat)) (s : Int),
      s ≤ (bestFold g player jmod rng l k b s).2 := by
  intro l
  induction l with
  | nil => intro k b s; simp [bestFold]
  | cons p rest ih =>
    intro k b s
    by_cases he : isEmptyAt g p
    · rw [bestFold, if_pos he]
      by_cases hgt :
        evaluate_pos g (p.1 : Int) (p.2 : Int) player + ((rng k % jmod : Nat) : Int) > s
      · rw [if_pos hgt]
        exact le_trans (le_of_lt hgt) (ih (k + 1) (some p) _)
      · rw [if_neg hgt]
        exact ih (k + 1) b s
    · rw [bestFold, if_neg he]
      exact ih k b s

/-- Every enumerated empty cell's jittered score is bounded by the final
best score of the selection loop. -/
theorem bestFold_all_le (g : GameState) (player : Int) (jmod : Nat) (rng : Nat → Nat) :
    ∀ (l : List (Nat × Nat)) (k : Nat) (b : Option (Nat × Nat)) (s : Int),
      ∀ t ∈ enumEmpt g l k,
        jitterScore g player jmod rng t ≤ (bestFold g player jmod rng l k b s).2 := by
  intro l
  induction l with
  | nil => intro k b s t ht; simp [enumEmpt] at ht
  | cons p rest ih =>
    intro k b s t ht
    by_cases he : isEmptyAt g p
    · rw [enumEmpt, if_pos he] at ht
      rw [bestFold, if_pos he]
      by_cases hgt :
        evaluate_pos g (p.1 : Int) (p.2 : Int) player + ((rng k % jmod : Nat) : Int) > s
      · rw [if_pos hgt]
        rcases List.mem_cons.mp ht with h | h
        · subst h
          exact bestFold_snd_ge g player jmod rng rest (k + 1) (some p) _
        · exact ih (k + 1) (some p) _ t h
      · rw [if_neg hgt]
        rcases List.mem_cons.mp ht with h | h
        · subst h
          exact le_trans (not_lt.mp hgt) (bestFold_snd_ge g player jmod rng rest (k + 1) b s)
        · exact ih (k + 1) b s t h
    · rw [enumEmpt, if_neg he] at ht
      rw [bestFold, if_neg he]
      exact ih k b s t ht

/-- The selection loop either returns its accumulator unchanged or an
enumerated empty cell together with that cell's jittered score. -/
theorem bestFold_mem (g : GameState) (player : Int) (jmod : Nat) (rng : Nat → Nat) :
    ∀ (l : List (Nat × Nat)) (k : Nat) (b : Option (Nat × Nat)) (s : Int),
      ((bestFold g player jmod rng l k b s).1 = b ∧
        (bestFold g player jmod rng l k b s).2 = s) ∨
      (∃ t ∈ enumEmpt g l k,
        (bestFold g player jmod rng l k b s).1 = some t.1 ∧
        (bestFold g player jmod rng l k b s).2 = jitterScore g player jmod rng t) := by
  intro l
  induction l with
  | nil => intro k b s; left; simp [bestFold]
  | cons p rest ih =>
    intro k b s
    by_cases he : isEmptyAt g p
    · rw [bestFold, if_pos he]
      by_cases hgt :
        evaluate_pos g (p.1 : Int) (p.2 : Int) player + ((rng k % jmod : Nat) : Int) > s
      · rw [if_pos hgt]
        rcases ih (k + 1) (some p) (evaluate_pos g (p.1 : Int) (p.2 : Int) player +
            ((rng k % jmod : Nat) : Int)) with ⟨h1, h2⟩ | ⟨t, ht, h1, h2⟩
        · right
          refine ⟨(p, k), ?_, h1, h2⟩
          rw [enumEmpt, if_pos he]
          exact List.mem_cons_self _ _
        · right
          refine ⟨t, ?_, h1, h2⟩
          rw [enumEmpt, if_pos he]
          exact List.mem_cons_of_mem _ ht
      · rw [if_neg hgt]
        rcases ih (k + 1) b s with h | ⟨t, ht, h1, h2⟩
        · left; exact h
        · right
          refine ⟨t, ?_, h1, h2⟩
          rw [enumEmpt, if_pos he]
          exact List.mem_cons_of_mem _ ht
    · rw [bestFold, if_neg he]
      rcases ih k b s with h | ⟨t, ht, h1, h2⟩
      · left; exact h
      · right
        refine ⟨t, ?_, h1, h2⟩
        rw [enumEmpt, if_neg he]
        exact ht

/-- The source heuristic score coincides with the specification's per-axis
formula. -/
theorem evaluate_pos_eq_spec (g : GameState) (r c player : Int) :
    evaluate_pos g r c player = specCellScore g r c player := by
  unfold evaluate_pos specCellScore colorOf
  by_cases hp : player = 1 <;> simp [hp, pow_two]

/-- The heuristic score is never negative. -/
theorem evaluate_pos_nonneg (g : GameState) (r c player : Int) :
    0 ≤ evaluate_pos g r c player := by
  unfold evaluate_pos
  apply List.sum_nonneg
  intro x hx
  simp only [List.mem_map] at hx
  obtain ⟨d, hd, rfl⟩ := hx
  apply add_nonneg <;> split <;> positivity

/-- Jittered totals are never negative. -/
theorem jitterScore_nonneg (g : GameState) (player : Int) (jmod : Nat) (rng : Nat → Nat)
    (t : (Nat × Nat) × Nat) : 0 ≤ jitterScore g player jmod rng t := by
  unfold jitterScore
  apply add_nonneg (evaluate_pos_nonneg g _ _ player)
  positivity

/-- Claim C7: the Tier-2 score of an empty cell is the sum over the four
axes of: 100000 when the own hypothetical run reaches `WIN_LENGTH`, else
`self_run^2 * 10`, plus 90000 when the opponent run reaches `WIN_LENGTH`,
else `opp_run^2 * 9` (anchor counted as 1 in both runs); a jitter
`rand() % 5`, always in `[0,5)`, is added per empty cell, and the AI at
difficulty 2 plays a cell whose jittered total is maximal over all empty
cells. -/
theorem C7_tier2_scoring (g : GameState) (rng : Nat → Nat)
    (hf : g.finished = false)
    (hne : ∃ p ∈ coords, isEmptyAt g p = true) :
    (∀ r c player : Int, evaluate_pos g r c player = specCellScore g r c player) ∧
    (∀ k : Nat, rng k % 5 < 5) ∧
    (∃ t ∈ enumEmpt g coords 0,
      ai_move g 2 rng = (place_stone g (t.1.1 : Int) (t.1.2 : Int)).1 ∧
      ∀ u ∈ enumEmpt g coords 0,
        jitterScore g g.current_player 5 rng u ≤ jitterScore g g.current_player 5 rng t) := by
  refine ⟨fun r c player => evaluate_pos_eq_spec g r c player,
    fun k => Nat.mod_lt _ (by omega), ?_⟩
  obtain ⟨p0, hp0, he0⟩ := hne
  have hmove : ai_move g 2 rng = tier2 g rng := by
    unfold ai_move
    rw [hf]
    norm_num
  rcases bestFold_mem g g.current_player 5 rng coords 0 none (-1) with ⟨h1, h2⟩ | ⟨t, ht, h1, h2⟩
  · exfalso
    have hnn : enumEmpt g coords 0 ≠ [] := enumEmpt_ne_nil g coords 0 p0 hp0 he0
    obtain ⟨t, ht⟩ : ∃ t, t ∈ enumEmpt g coords 0 := by
      rcases hE : enumEmpt g coords 0 with _ | ⟨a, l⟩
      · exact absurd hE hnn
      · exact ⟨a, List.mem_cons_self _ _⟩
    have hle := bestFold_all_le g g.current_player 5 rng coords 0 none (-1) t ht
    rw [h2] at hle
    have hge := jitterScore_nonneg g g.current_player 5 rng t
    omega
  · refine ⟨t, ht, ?_, ?_⟩
    · rw [hmove]
      unfold tier2
      rw [h1]
    · intro u hu
      have h := bestFold_all_le g g.current_player 5 rng coords 0 none (-1) u hu
      rw [h2] at h
      exact h

/-- Witness for C7: the formula part of the claim instantiated at a
concrete board and cell, with all hypotheses discharged concretely. -/
theorem C7_witness :
    evaluate_pos stFiveRow 9 9 1 = specCellScore stFiveRow 9 9 1 :=
  (C7_tier2_scoring stFiveRow (fun _ => 0) rfl ⟨(0, 0), by decide, by decide⟩).1 9 9 1

/-! ### Counting stones (towards C2) -/

/-- In-bounds integer coordinates land in `boardCells` after `toNat`. -/
theorem within_board_mem (r c : Int) (h : within_board r c = true) :
    (r.toNat, c.toNat) ∈ boardCells := by
  simp only [within_board, decide_eq_true_eq] at h
  simp only [boardCells, Finset.mem_product, Finset.mem_range]
  constructor <;> omega

/-- `stoneCount` depends only on the board. -/
theorem stoneCount_congr (g1 g2 : GameState) (h : g1.cells = g2.cells) :
    stoneCount g1 = stoneCount g2 := by
  unfold stoneCount
  rw [h]

/-- Splitting the stone count at one board cell. -/
theorem stoneCount_split (g : GameState) (q : Nat × Nat) (hq : q ∈ boardCells) :
    stoneCount g = (if g.cells q ≠ Cell.Empty then 1 else 0) +
      ∑ p ∈ boardCells.erase q, (if g.cells p ≠ Cell.Empty then 1 else 0) := by
  unfold stoneCount
  exact (Finset.add_sum_erase _ _ hq).symm

/-- Updating one cell leaves the rest of the count unchanged. -/
theorem sum_erase_update (g : GameState) (q : Nat × Nat) (v : Cell) :
    ∑ p ∈ boardCells.erase q, (if Function.update g.cells q v p ≠ Cell.Empty then 1 else 0) =
    ∑ p ∈ boardCells.erase q, (if g.cells p ≠ Cell.Empty then 1 else 0) := by
  apply Finset.sum_congr rfl
  intro p hp
  rw [Function.update_noteq (Finset.ne_of_mem_erase hp)]

/-- Placing a stone on an empty in-range cell increments the count. -/
theorem stoneCount_place (g : GameState) (q : Nat × Nat) (v : Cell)
    (hq : q ∈ boardCells) (he : g.cells q = Cell.Empty) (hv : v ≠ Cell.Empty) :
    stoneCount { g with cells := Function.update g.cells q v } = stoneCount g + 1 := by
  rw [stoneCount_split { g with cells := Function.update g.cells q v } q hq,
    stoneCount_split g q hq]
  simp only [Function.update_same, sum_erase_update, he, hv]
  rw [if_pos hv, if_neg (fun h => h rfl)]
  omega

/-- Clearing a stone from an occupied in-range cell decrements the count. -/
theorem stoneCount_clear (g : GameState) (q : Nat × Nat)
    (hq : q ∈ boardCells) (he : g.cells q ≠ Cell.Empty) :
    stoneCount g = stoneCount { g with cells := Function.update g.cells q Cell.Empty } + 1 := by
  rw [stoneCount_split { g with cells := Function.update g.cells q Cell.Empty } q hq,
    stoneCount_split g q hq]
  simp only [Function.update_same, sum_erase_update, he]
  rw [if_pos he, if_neg (fun h => h rfl)]
  omega

/-- A board with an empty in-range cell holds fewer than
`BOARD_SIZE * BOARD_SIZE` stones. -/
theorem stoneCount_lt (g : GameState) (q : Nat × Nat)
    (hq : q ∈ boardCells) (he : g.cells q = Cell.Empty) :
    stoneCount g < BOARD_SIZE * BOARD_SIZE := by
  rw [stoneCount_split g q hq]
  simp only [he, ne_eq, not_true_eq_false, ite_false, if_false, zero_add, not_false_eq_true]
  have hcard : (boardCells.erase q).card = BOARD_SIZE * BOARD_SIZE - 1 := by
    rw [Finset.card_erase_of_mem hq]
    simp [boardCells, Finset.card_product]
  calc ∑ p ∈ boardCells.erase q, (if g.cells p ≠ Cell.Empty then 1 else 0)
      ≤ ∑ _p ∈ boardCells.erase q, 1 := by
        apply Finset.sum_le_sum
        intro p _
        split <;> omega
    _ = (boardCells.erase q).card := by simp
    _ < BOARD_SIZE * BOARD_SIZE := by rw [hcard]; decide

/-! ### Invariant preservation (C2) -/

/-- A list with a known last element splits as `dropLast ++ [last]`. -/
theorem getLast?_decomp {α : Type} (l : List α) (a : α) (h : l.getLast? = some a) :
    l.dropLast ++ [a] = l ∧ a ∈ l := by
  have hx : a ∈ l.getLast? := by rw [h]; exact Option.mem_some_self a
  obtain ⟨hne, rfl⟩ := List.mem_getLast?_eq_getLast hx
  exact ⟨List.dropLast_append_getLast hne, List.getLast_mem hne⟩

/-- `StateInv` depends only on the board and the history. -/
theorem StateInv_of (g1 g2 : GameState) (hc : g2.cells = g1.cells) (hm : g2.moves = g1.moves)
    (h : StateInv g1) : StateInv g2 := by
  obtain ⟨h1, h2, h3⟩ := h
  refine ⟨?_, ?_, ?_⟩
  · rw [hm, stoneCount_congr g2 g1 hc]; exact h1
  · intro m hmem
    rw [hm] at hmem
    rw [hc]
    exact h2 m hmem
  · rw [hm]; exact h3

/-- The fresh state satisfies the invariants. -/
theorem inv_init : StateInv init_game := by
  refine ⟨?_, ?_, ?_⟩
  · simp [init_game, stoneCount]
  · intro m hm; simp [init_game] at hm
  · simp [init_game]

/-- A successful placement preserves the invariants. -/
theorem inv_place (g : GameState) (row col : Int)
    (hInv : StateInv g) (hsucc : (place_stone g row col).2 = true) :
    StateInv (place_stone g row col).1 := by
  obtain ⟨hf, hw, he⟩ := place_stone_succ_inv g row col hsucc
  obtain ⟨h1, h2, h3⟩ := hInv
  have hq : (row.toNat, col.toNat) ∈ boardCells := within_board_mem row col hw
  have heq : g.cells (row.toNat, col.toNat) = Cell.Empty := he
  have hlen : g.moves.length < BOARD_SIZE * BOARD_SIZE := by
    rw [h1]; exact stoneCount_lt g _ hq heq
  have hpb : StateInv (placedBoard g row col) := by
    refine ⟨?_, ?_, ?_⟩
    · show (g.moves ++ [_]).length = stoneCount (placedBoard g row col)
      rw [List.length_append]
      have hcnt : stoneCount (placedBoard g row col) = stoneCount g + 1 :=
        stoneCount_place g (row.toNat, col.toNat) (colorOf g.current_player) hq heq
          (colorOf_ne_empty _)
      rw [hcnt, h1]
      simp
    · intro m hm
      rcases List.mem_append.mp hm with hmem | hmem
      · obtain ⟨hw2, hc2⟩ := h2 m hmem
        have hne : mpos m ≠ (row.toNat, col.toNat) := by
          intro hcontra
          rw [hcontra] at hc2
          exact hc2 heq
        refine ⟨hw2, ?_⟩
        show Function.update g.cells _ _ (mpos m) ≠ Cell.Empty
        rw [Function.update_noteq hne]
        exact hc2
      · simp only [List.mem_singleton] at hmem
        subst hmem
        refine ⟨hw, ?_⟩
        show Function.update g.cells (row.toNat, col.toNat) (colorOf g.current_player)
          (mpos { row := row, col := col, player := g.current_player }) ≠ Cell.Empty
        have hmm : mpos { row := row, col := col, player := g.current_player }
            = (row.toNat, col.toNat) := rfl
        rw [hmm, Function.update_same]
        exact colorOf_ne_empty _
    · show (g.moves ++ [_]).Pairwise _
      rw [List.pairwise_append]
      refine ⟨h3, List.pairwise_singleton _ _, ?_⟩
      intro a ha b hb
      simp only [List.mem_singleton] at hb
      subst hb
      obtain ⟨-, hc2⟩ := h2 a ha
      intro hcontra
      have hmm : mpos { row := row, col := col, player := g.current_player }
          = (row.toNat, col.toNat) := rfl
      rw [hmm] at hcontra
      rw [hcontra] at hc2
      exact hc2 heq
  rw [place_stone_success g row col hf hw he hlen]
  split
  · exact StateInv_of _ _ rfl rfl hpb
  · split
    · exact StateInv_of _ _ rfl rfl hpb
    · exact StateInv_of _ _ rfl rfl hpb

/-- `undo_last_move` preserves the invariants. -/
theorem inv_undo (g : GameState) (hInv : StateInv g) : StateInv (undo_last_move g).1 := by
  obtain ⟨h1, h2, h3⟩ := hInv
  rcases hml : g.moves.getLast? with _ | last
  · have hnil : g.moves = [] := by
      cases hmv : g.moves with
      | nil => rfl
      | cons a l => rw [hmv] at hml; simp at hml
    rw [undo_last_move_nil g hnil]
    exact ⟨h1, h2, h3⟩
  · obtain ⟨hdecomp, hmem⟩ := getLast?_decomp g.moves last hml
    obtain ⟨hw2, hc2⟩ := h2 last hmem
    rw [undo_last_move_some g last hml hw2]
    have hq : mpos last ∈ boardCells := within_board_mem _ _ hw2
    have hpair : ∀ a ∈ g.moves.dropLast, mpos a ≠ mpos last := by
      have hp := h3
      rw [← hdecomp, List.pairwise_append] at hp
      intro a ha
      exact hp.2.2 a ha last (List.mem_singleton_self _)
    refine ⟨?_, ?_, ?_⟩
    · show g.moves.dropLast.length = stoneCount _
      have hcnt := stoneCount_clear g (mpos last) hq hc2
      have hcg : stoneCount ({ g with
          cells := Function.update g.cells (mpos last) Cell.Empty,
          moves := g.moves.dropLast,
          current_player := if g.moves.dropLast.length = 0 then 1 else last.player,
          finished := false, winner := 0 } : GameState)
          = stoneCount { g with cells := Function.update g.cells (mpos last) Cell.Empty } :=
        stoneCount_congr _ _ rfl
      rw [hcg]
      have hlen2 : g.moves.dropLast.length = g.moves.length - 1 := List.length_dropLast g.moves
      have hpos : 0 < g.moves.length := by
        rw [← hdecomp]; simp
      omega
    · intro m hmem2
      have hmm : m ∈ g.moves := by
        rw [← hdecomp]; exact List.mem_append_left _ hmem2
      obtain ⟨hwm, hcm⟩ := h2 m hmm
      refine ⟨hwm, ?_⟩
      show Function.update g.cells (mpos last) Cell.Empty (mpos m) ≠ Cell.Empty
      rw [Function.update_noteq (hpair m hmem2)]
      exact hcm
    · show g.moves.dropLast.Pairwise _
      have hp := h3
      rw [← hdecomp, List.pairwise_append] at hp
      exact hp.1

/-- Every reachable state satisfies the invariants. -/
theorem reachable_inv (g : GameState) (h : Reachable g) : StateInv g := by
  induction h with
  | init => exact inv_init
  | place row col _ hsucc ih => exact inv_place _ row col ih hsucc
  | undo _ _ ih => exact inv_undo _ ih

/-- Claim C2: in every state reachable from the fresh game by successful
`place_stone` and `undo_last_move` calls, `moves_count` equals the number
of non-Empty cells of the board. -/
theorem C2_moves_count_invariant (g : GameState) (h : Reachable g) :
    g.moves_count = stoneCount g :=
  (reachable_inv g h).1

/-- Witness for C2: the invariant instantiated one successful placement
away from the fresh game. -/
theorem C2_witness :
    (place_stone init_game 9 9).1.moves_count = stoneCount (place_stone init_game 9 9).1 :=
  C2_moves_count_invariant (place_stone init_game 9 9).1
    (Reachable.place 9 9 Reachable.init (by decide))

/-! ### Every AI branch plays one empty cell (towards C10) -/

/-- A non-empty head of a filtered list is a member satisfying the
predicate. -/
theorem head?_filter_mem {α : Type} (l : List α) (f : α → Bool) (p : α)
    (h : (l.filter f).head? = some p) : p ∈ l ∧ f p = true := by
  have hm : p ∈ l.filter f := by
    cases hl : l.filter f with
    | nil => rw [hl] at h; cases h
    | cons a t =>
      rw [hl] at h
      have : a = p := by cases h; rfl
      subst this
      exact List.mem_cons_self _ _
  have := List.mem_filter.mp hm
  exact ⟨this.1, this.2⟩

/-- A known last element of a filtered list is a member satisfying the
predicate. -/
theorem getLast?_filter_mem {α : Type} (l : List α) (f : α → Bool) (p : α)
    (h : (l.filter f).getLast? = some p) : p ∈ l ∧ f p = true := by
  obtain ⟨-, hm⟩ := getLast?_decomp (l.filter f) p h
  have := List.mem_filter.mp hm
  exact ⟨this.1, this.2⟩

/-- If some empty cell exists in the scan list, the empty count is
positive. -/
theorem filter_empty_pos (g : GameState) (hne : ∃ p ∈ coords, isEmptyAt g p = true) :
    0 < (coords.filter (fun p => isEmptyAt g p)).length := by
  obtain ⟨p, hp, he⟩ := hne
  have hm : p ∈ coords.filter (fun p => isEmptyAt g p) := List.mem_filter.mpr ⟨hp, he⟩
  exact List.length_pos.mpr (List.ne_nil_of_mem hm)

/-- The pick loop of `random_move` finds an empty member whenever the pick
index is below the empty count. -/
theorem pickEmpty_mem (g : GameState) :
    ∀ (l : List (Nat × Nat)) (pick : Nat),
      pick < (l.filter (fun p => isEmptyAt g p)).length →
      ∃ p, pickEmpty g l pick = some p ∧ p ∈ l ∧ isEmptyAt g p = true := by
  intro l
  induction l with
  | nil => intro pick h; simp at h
  | cons a rest ih =>
    intro pick h
    by_cases he : isEmptyAt g a
    · by_cases hp : pick = 0
      · exact ⟨a, by rw [pickEmpty, if_pos he, if_pos hp], List.mem_cons_self _ _, he⟩
      · rw [List.filter_cons, if_pos he, List.length_cons] at h
        obtain ⟨p, h1, h2, h3⟩ := ih (pick - 1) (by omega)
        exact ⟨p, by rw [pickEmpty, if_pos he, if_neg hp]; exact h1,
          List.mem_cons_of_mem _ h2, h3⟩
    · rw [List.filter_cons, if_neg he] at h
      obtain ⟨p, h1, h2, h3⟩ := ih pick h
      exact ⟨p, by rw [pickEmpty, if_neg he]; exact h1, List.mem_cons_of_mem _ h2, h3⟩

/-- With an empty cell available, `random_move` performs a single
placement on an empty cell. -/
theorem random_move_plays (g : GameState) (rng : Nat → Nat)
    (hne : ∃ p ∈ coords, isEmptyAt g p = true) :
    ∃ q, q ∈ coords ∧ isEmptyAt g q = true ∧
      (random_move g rng).1 = (place_stone g (q.1 : Int) (q.2 : Int)).1 := by
  have hn := filter_empty_pos g hne
  have hmod : rng 0 % (coords.filter (fun p => isEmptyAt g p)).length <
      (coords.filter (fun p => isEmptyAt g p)).length := Nat.mod_lt _ hn
  obtain ⟨p, h1, h2, h3⟩ := pickEmpty_mem g coords _ hmod
  refine ⟨p, h2, h3, ?_⟩
  simp only [random_move]
  rw [if_neg (by omega), h1]

/-- With an empty cell available, the selection loop of tiers 2 and the
difficulty-3 fallback returns some enumerated empty cell. -/
theorem bestFold_plays (g : GameState) (rng : Nat → Nat) (jmod : Nat)
    (hne : ∃ p ∈ coords, isEmptyAt g p = true) :
    ∃ t ∈ enumEmpt g coords 0,
      (bestFold g g.current_player jmod rng coords 0 none (-1)).1 = some t.1 := by
  obtain ⟨p0, hp0, he0⟩ := hne
  rcases bestFold_mem g g.current_player jmod rng coords 0 none (-1) with ⟨h1, h2⟩ | ⟨t, ht, h1, h2⟩
  · exfalso
    have hnn : enumEmpt g coords 0 ≠ [] := enumEmpt_ne_nil g coords 0 p0 hp0 he0
    obtain ⟨t, ht⟩ : ∃ t, t ∈ enumEmpt g coords 0 := by
      rcases hE : enumEmpt g coords 0 with _ | ⟨a, l⟩
      · exact absurd hE hnn
      · exact ⟨a, List.mem_cons_self _ _⟩
    have hle := bestFold_all_le g g.current_player jmod rng coords 0 none (-1) t ht
    rw [h2] at hle
    have hge := jitterScore_nonneg g g.current_player jmod rng t
    omega
  · exact ⟨t, ht, h1⟩

/-- The threat scan only ever records empty cells of the scan list. -/
theorem threatFold_mem (g : GameState) (opp : Int) :
    ∀ (l : List (Nat × Nat)) (tp : Option (Nat × Nat)) (tl : Nat) (p : Nat × Nat),
      (threatFold g opp l tp tl).1 = some p →
      tp = some p ∨ (p ∈ l ∧ isEmptyAt g p = true) := by
  intro l
  induction l with
  | nil => intro tp tl p h; left; exact h
  | cons a rest ih =>
    intro tp tl p h
    by_cases he : isEmptyAt g a
    · rw [threatFold, if_pos he] at h
      by_cases hgt : maxOppRun g opp a > tl
      · rw [if_pos hgt] at h
        rcases ih (some a) (maxOppRun g opp a) p h with h2 | h2
        · right
          have : a = p := by cases h2; rfl
          subst this
          exact ⟨List.mem_cons_self _ _, he⟩
        · exact Or.inr ⟨List.mem_cons_of_mem _ h2.1, h2.2⟩
      · rw [if_neg hgt] at h
        rcases ih tp tl p h with h2 | h2
        · exact Or.inl h2
        · exact Or.inr ⟨List.mem_cons_of_mem _ h2.1, h2.2⟩
    · rw [threatFold, if_neg he] at h
      rcases ih tp tl p h with h2 | h2
      · exact Or.inl h2
      · exact Or.inr ⟨List.mem_cons_of_mem _ h2.1, h2.2⟩

/-- Coordinates of the row-major scan are within the board. -/
theorem coords_within (p : Nat × Nat) (h : p ∈ coords) :
    within_board (p.1 : Int) (p.2 : Int) = true := by
  rcases p with ⟨a, b⟩
  simp only [coords, List.mem_flatMap, List.mem_map, List.mem_range] at h
  obtain ⟨r, hr, c, hc, heq⟩ := h
  cases heq
  simp only [within_board, decide_eq_true_eq]
  refine ⟨by positivity, ?_, by positivity, ?_⟩ <;> omega

/-- With an empty cell available, the difficulty-3 branch performs a
single placement on an empty cell. -/
theorem tier3_plays (g : GameState) (rng : Nat → Nat)
    (hne : ∃ p ∈ coords, isEmptyAt g p = true) :
    ∃ q, q ∈ coords ∧ isEmptyAt g q = true ∧
      tier3 g rng = (place_stone g (q.1 : Int) (q.2 : Int)).1 := by
  unfold tier3
  rcases hsc1 : (scanWinBlock g (if g.current_player = 1 then 2 else 1) coords none).1 with _ | p
  · rcases hsc2 : (scanWinBlock g (if g.current_player = 1 then 2 else 1) coords none).2 with _ | q
    · by_cases hth : (threatFold g (if g.current_player = 1 then 2 else 1) coords none 0).2 ≥
        (if WIN_LENGTH > 2 then WIN_LENGTH - 2 else 2)
      · rcases htp : (threatFold g (if g.current_player = 1 then 2 else 1) coords none 0).1 with _ | t
        · obtain ⟨t, ht, hbf⟩ := bestFold_plays g rng 3 hne
          obtain ⟨hmem, hempty⟩ := enumEmpt_mem g coords 0 t ht
          refine ⟨t.1, hmem, hempty, ?_⟩
          simp only [hsc1, hsc2, hth, htp, ge_iff_le, if_true, ite_true]
          simp only [tier3Fallback, hbf]
        · rcases threatFold_mem g _ coords none 0 t htp with h2 | h2
          · cases h2
          · refine ⟨t, h2.1, h2.2, ?_⟩
            simp [hsc1, hsc2, hth, htp]
      · obtain ⟨t, ht, hbf⟩ := bestFold_plays g rng 3 hne
        obtain ⟨hmem, hempty⟩ := enumEmpt_mem g coords 0 t ht
        refine ⟨t.1, hmem, hempty, ?_⟩
        simp only [hsc1, hsc2, hth, ge_iff_le, if_false, ite_false]
        simp only [tier3Fallback, hbf]
    · have hwf : coords.filter (fun q => isEmptyAt g q && simSelfWin g q) = [] := by
        have h := scanWinBlock_fst g (if g.current_player = 1 then 2 else 1) coords none
        rw [hsc1] at h
        exact List.head?_eq_none_iff.mp h.symm
      have hsnd := scanWinBlock_snd g (if g.current_player = 1 then 2 else 1) coords none hwf
      rw [hsc2] at hsnd
      simp only [Option.or_none] at hsnd
      obtain ⟨hmem, hcond⟩ := getLast?_filter_mem coords _ q hsnd.symm
      rw [Bool.and_eq_true] at hcond
      refine ⟨q, hmem, hcond.1, ?_⟩
      simp [hsc1, hsc2]
  · have h := scanWinBlock_fst g (if g.current_player = 1 then 2 else 1) coords none
    rw [hsc1] at h
    obtain ⟨hmem, hcond⟩ := head?_filter_mem coords _ p h.symm
    rw [Bool.and_eq_true] at hcond
    refine ⟨p, hmem, hcond.1, ?_⟩
    simp [hsc1]

/-- With an empty cell available, every difficulty of `ai_move` performs a
single placement on an empty cell. -/
theorem ai_move_plays (g : GameState) (d : Int) (rng : Nat → Nat)
    (hf : g.finished = false) (hne : ∃ p ∈ coords, isEmptyAt g p = true) :
    ∃ q, q ∈ coords ∧ isEmptyAt g q = true ∧
      ai_move g d rng = (place_stone g (q.1 : Int) (q.2 : Int)).1 := by
  by_cases h1 : d ≤ 1
  · obtain ⟨q, hq1, hq2, hq3⟩ := random_move_plays g rng hne
    refine ⟨q, hq1, hq2, ?_⟩
    simp only [ai_move, hf, Bool.false_eq_true, if_false, ite_false, h1, if_true, ite_true]
    exact hq3
  · by_cases h2 : d = 2
    · obtain ⟨t, ht, hbf⟩ := bestFold_plays g rng 5 hne
      obtain ⟨hmem, hempty⟩ := enumEmpt_mem g coords 0 t ht
      refine ⟨t.1, hmem, hempty, ?_⟩
      simp only [ai_move, hf, Bool.false_eq_true, if_false, ite_false, h1, h2, if_true, ite_true]
      rw [if_neg (by norm_num)]
      simp only [tier2, hbf]
    · obtain ⟨q, hq1, hq2, hq3⟩ := tier3_plays g rng hne
      refine ⟨q, hq1, hq2, ?_⟩
      simp only [ai_move, hf, Bool.false_eq_true, if_false, ite_false, h1, h2, ite_false]
      exact hq3

/-- A successful placement on an empty in-range scan cell: the target cell
takes the mover's color, every other cell is untouched, and the history
grows by one. -/
theorem place_one_stone (g : GameState) (q : Nat × Nat)
    (hf : g.finished = false) (hq : q ∈ coords) (he : isEmptyAt g q = true)
    (hlen : g.moves.length < BOARD_SIZE * BOARD_SIZE) :
    (place_stone g (q.1 : Int) (q.2 : Int)).1.cells q = colorOf g.current_player ∧
    (∀ u : Nat × Nat, u ≠ q → (place_stone g (q.1 : Int) (q.2 : Int)).1.cells u = g.cells u) ∧
    (place_stone g (q.1 : Int) (q.2 : Int)).1.moves.length = g.moves.length + 1 := by
  have hw : within_board (q.1 : Int) (q.2 : Int) = true := coords_within q hq
  have hkey : (((q.1 : Int)).toNat, ((q.2 : Int)).toNat) = q := by simp
  have he2 : getCell g (q.1 : Int) (q.2 : Int) = Cell.Empty := by
    simp only [isEmptyAt, decide_eq_true_eq] at he
    simp only [getCell, hkey]
    exact he
  rw [place_stone_success g _ _ hf hw he2 hlen]
  have hc1 : (placedBoard g (q.1 : Int) (q.2 : Int)).cells q = colorOf g.current_player := by
    simp only [placedBoard]
    rw [hkey, Function.update_same]
  have hc2 : ∀ u : Nat × Nat, u ≠ q →
      (placedBoard g (q.1 : Int) (q.2 : Int)).cells u = g.cells u := by
    intro u hu
    simp only [placedBoard]
    rw [hkey, Function.update_noteq hu]
  have hc3 : (placedBoard g (q.1 : Int) (q.2 : Int)).moves.length = g.moves.length + 1 := by
    simp [placedBoard]
  split
  · exact ⟨hc1, hc2, hc3⟩
  · split
    · exact ⟨hc1, hc2, hc3⟩
    · exact ⟨hc1, hc2, hc3⟩

/-- Claim C10: when the game is finished, `ai_move` changes nothing —
unconditionally, full-board terminal states included; when the game is
not finished and an empty cell exists (and the history has room, as
invariant 1 guarantees whenever the board has an empty cell), `ai_move`
at every difficulty places exactly one stone: one previously-Empty cell
takes the AI side's color, every other cell is untouched, and
`moves_count` grows by exactly 1. -/
theorem C10_ai_single_stone (g : GameState) (difficulty : Int) (rng : Nat → Nat) :
    (g.finished = true → ai_move g difficulty rng = g) ∧
    (g.finished = false → (∃ p ∈ coords, g.cells p = Cell.Empty) →
      g.moves_count < BOARD_SIZE * BOARD_SIZE →
      ∃ q ∈ coords, g.cells q = Cell.Empty ∧
        (ai_move g difficulty rng).cells q = colorOf g.current_player ∧
        (∀ u : Nat × Nat, u ≠ q → (ai_move g difficulty rng).cells u = g.cells u) ∧
        (ai_move g difficulty rng).moves_count = g.moves_count + 1) := by
  constructor
  · intro hfin
    simp [ai_move, hfin]
  · intro hf hne hlen
    have hne2 : ∃ p ∈ coords, isEmptyAt g p = true := by
      obtain ⟨p, hp, he⟩ := hne
      exact ⟨p, hp, by simp [isEmptyAt, he]⟩
    obtain ⟨q, hq1, hq2, hq3⟩ := ai_move_plays g difficulty rng hf hne2
    obtain ⟨k1, k2, k3⟩ := place_one_stone g q hf hq1 hq2 hlen
    refine ⟨q, hq1, by simpa [isEmptyAt] using hq2, ?_, ?_, ?_⟩
    · rw [hq3]; exact k1
    · intro u hu; rw [hq3]; exact k2 u hu
    · show (ai_move g difficulty rng).moves.length = g.moves.length + 1
      rw [hq3]; exact k3

/-- Witness for C10: at difficulty 1 on a concrete unfinished board with
empty cells, the AI places exactly one stone. -/
theorem C10_witness :
    ∃ q ∈ coords, stFiveRow.cells q = Cell.Empty ∧
      (ai_move stFiveRow 1 (fun _ => 0)).cells q = colorOf stFiveRow.current_player ∧
      (∀ u : Nat × Nat, u ≠ q → (ai_move stFiveRow 1 (fun _ => 0)).cells u = stFiveRow.cells u) ∧
      (ai_move stFiveRow 1 (fun _ => 0)).moves_count = stFiveRow.moves_count + 1 :=
  (C10_ai_single_stone stFiveRow 1 (fun _ => 0)).2 rfl
    ⟨(0, 0), by decide, by decide⟩ (by decide)
